import Mathlib

/-
  Verification development for the rust-usfm parser crate.

  The Rust sources (src/parser/src/terminal.rs, extension.rs, document.rs)
  are shallowly embedded here.  Input slices (&str) are modelled as
  `List Char`; nom's `IResult<&str, O, VerboseError<&str>>` is modelled by
  `PRes O`, whose `err` constructor corresponds to `Err::Error` (recoverable)
  and `fail` to `Err::Failure` (non-recoverable, produced by `cut`).
  Error payloads model `VerboseError`: a list of (position, kind) frames.
-/

set_option maxRecDepth 100000

namespace Usfm

abbrev Input := List Char

abbrev PError := List (Input × String)

inductive PRes (α : Type) where
  | ok (rest : Input) (val : α)
  | err (e : PError)
  | fail (e : PError)
deriving DecidableEq, Repr

def str (s : String) : Input := s.data

def PRes.isOk : PRes α → Bool
  | .ok _ _ => true
  | _ => false

def PRes.isRecoverableErr : PRes α → Bool
  | .err _ => true
  | _ => false

/-! ### Core nom combinators -/

/-- Sequencing with error propagation (the `?` operator / nom tuples). -/
def pbind (p : Input → PRes α) (f : α → Input → PRes β) : Input → PRes β :=
  fun input =>
    match p input with
    | .ok rest a => f a rest
    | .err e => .err e
    | .fail e => .fail e

def pmap (p : Input → PRes α) (f : α → β) : Input → PRes β :=
  fun input =>
    match p input with
    | .ok rest a => .ok rest (f a)
    | .err e => .err e
    | .fail e => .fail e

/-- nom `value(v, p)`. -/
def pvalue (v : β) (p : Input → PRes α) : Input → PRes β :=
  pmap p (fun _ => v)

/-- nom `Parser::and`: pair sequencing. -/
def pand (p : Input → PRes α) (q : Input → PRes β) : Input → PRes (α × β) :=
  pbind p (fun a => pmap q (fun b => (a, b)))

/-- nom `Parser::or`: try `p`; on a recoverable error, try `q` on the same
    input (keeping `q`'s error); `Err::Failure` is propagated immediately. -/
def por (p q : Input → PRes α) : Input → PRes α :=
  fun input =>
    match p input with
    | .err _ =>
      match q input with
      | .err e2 => .err e2
      | r => r
    | r => r

/-- nom `alt(( ... ))` over a list of alternatives: on total failure the last
    alternative's error is kept and an `Alt` frame is appended at the
    alternation's input. -/
def paltList (ps : List (Input → PRes α)) (input : Input) : PRes α :=
  match ps with
  | [] => .err [(input, "Alt")]
  | p :: rest =>
    match p input with
    | .ok r v => .ok r v
    | .fail e => .fail e
    | .err e =>
      match rest with
      | [] => .err (e ++ [(input, "Alt")])
      | _ => paltList rest input

/-- nom `opt(p)`: recoverable errors become `none` without consuming;
    `Err::Failure` propagates. -/
def popt (p : Input → PRes α) : Input → PRes (Option α) :=
  fun input =>
    match p input with
    | .ok rest a => .ok rest (some a)
    | .err _ => .ok input none
    | .fail e => .fail e

/-- nom `cut(p)`: promotes recoverable errors to non-recoverable failures. -/
def pcut (p : Input → PRes α) : Input → PRes α :=
  fun input =>
    match p input with
    | .err e => .fail e
    | r => r

/-- nom `success(v)`. -/
def psuccess (v : α) : Input → PRes α := fun input => .ok input v

/-- nom `peek(p)`: runs `p` but does not consume. -/
def ppeek (p : Input → PRes α) : Input → PRes α :=
  fun input =>
    match p input with
    | .ok _ v => .ok input v
    | r => r

/-- nom `verify(p, pred)`: errors at the original input when `pred` fails. -/
def pverify (p : Input → PRes α) (pred : α → Bool) : Input → PRes α :=
  fun input =>
    match p input with
    | .ok rest a => if pred a then .ok rest a else .err [(input, "Verify")]
    | r => r

/-- nom `recognize(p)`: returns the consumed prefix of the input. -/
def precognize (p : Input → PRes α) : Input → PRes Input :=
  fun input =>
    match p input with
    | .ok rest _ => .ok rest (input.take (input.length - rest.length))
    | .err e => .err e
    | .fail e => .fail e

def pdelimited (a : Input → PRes α) (b : Input → PRes β) (c : Input → PRes γ) :
    Input → PRes β :=
  pbind a (fun _ => pbind b (fun v => pmap c (fun _ => v)))

def pterminated (b : Input → PRes β) (c : Input → PRes γ) : Input → PRes β :=
  pbind b (fun v => pmap c (fun _ => v))

def ppreceded (a : Input → PRes α) (b : Input → PRes β) : Input → PRes β :=
  pbind a (fun _ => b)

/-- nom `context(name, p)`: appends a context frame to either error variant. -/
def pcontext (nm : String) (p : Input → PRes α) : Input → PRes α :=
  fun input =>
    match p input with
    | .err e => .err (e ++ [(input, "Context " ++ nm)])
    | .fail e => .fail (e ++ [(input, "Context " ++ nm)])
    | r => r

/-- nom `char(c)`. -/
def pchar (c : Char) (input : Input) : PRes Char :=
  match input with
  | c2 :: rest => if c2 = c then .ok rest c else .err [(input, "Char")]
  | [] => .err [(input, "Char")]

/-- nom `tag(lit)` for string literals. -/
def ptag (lit : Input) (input : Input) : PRes Input :=
  if lit.isPrefixOf input then .ok (input.drop lit.length) lit
  else .err [(input, "Tag")]

/-- nom `tag_no_case(lit)`: ASCII-case-insensitive literal match. -/
def ptagNoCase (lit : Input) (input : Input) : PRes Input :=
  if lit.length ≤ input.length
      && (List.zip lit (input.take lit.length)).all
           (fun p => p.1.toLower = p.2.toLower) then
    .ok (input.drop lit.length) (input.take lit.length)
  else .err [(input, "Tag")]

/-- nom `one_of(set)`. -/
def poneOf (set : List Char) (input : Input) : PRes Char :=
  match input with
  | c :: rest => if set.contains c then .ok rest c else .err [(input, "OneOf")]
  | [] => .err [(input, "OneOf")]

/-- nom `none_of(set)`. -/
def pnoneOf (set : List Char) (input : Input) : PRes Char :=
  match input with
  | c :: rest => if set.contains c then .err [(input, "NoneOf")] else .ok rest c
  | [] => .err [(input, "NoneOf")]

/-- nom `take_while1(pred)` (also `is_not`, `digit1`, ...). -/
def ptakeWhile1 (pred : Char → Bool) (kind : String) (input : Input) : PRes Input :=
  let taken := input.takeWhile pred
  if taken.isEmpty then .err [(input, kind)]
  else .ok (input.drop taken.length) taken

/-- nom `is_not(set)`. -/
def pisNot (set : List Char) : Input → PRes Input :=
  ptakeWhile1 (fun c => !(set.contains c)) "IsNot"

/-- nom `take(n)` (character count on &str). -/
def ptake (n : Nat) (input : Input) : PRes Input :=
  if n ≤ input.length then .ok (input.drop n) (input.take n)
  else .err [(input, "Eof")]

/-- nom `eof`. -/
def peof (input : Input) : PRes Input :=
  if input.isEmpty then .ok input [] else .err [(input, "Eof")]

/-- nom `many0_count(p)`: fuelled loop; as in nom, a successful parse that
    consumes nothing is rejected with a `Many0Count` error.  The fuel
    (`input.length + 1` at top level) can only run out if an iteration
    consumes nothing, which the zero-consumption guard already excludes. -/
def many0CountAux (p : Input → PRes α) : Nat → Input → Nat → PRes Nat
  | 0, input, _ => .err [(input, "Fuel")]
  | fuel + 1, input, cnt =>
    match p input with
    | .err _ => .ok input cnt
    | .fail e => .fail e
    | .ok rest _ =>
      if rest = input then .err [(input, "Many0Count")]
      else many0CountAux p fuel rest (cnt + 1)

def pmany0Count (p : Input → PRes α) (input : Input) : PRes Nat :=
  many0CountAux p (input.length + 1) input 0

/-- nom `many1_count(p)`: first application must succeed (a recoverable first
    failure is replaced by a fresh `Many1Count` error), then loops as
    `many0_count`. -/
def pmany1Count (p : Input → PRes α) (input : Input) : PRes Nat :=
  match p input with
  | .err _ => .err [(input, "Many1Count")]
  | .fail e => .fail e
  | .ok rest _ => many0CountAux p (rest.length + 1) rest 1

/-- nom `many0(p)` collecting results; zero-consumption is an error as in nom. -/
def many0Aux (p : Input → PRes α) : Nat → Input → List α → PRes (List α)
  | 0, input, _ => .err [(input, "Fuel")]
  | fuel + 1, input, acc =>
    match p input with
    | .err _ => .ok input acc.reverse
    | .fail e => .fail e
    | .ok rest v =>
      if rest = input then .err [(input, "Many0")]
      else many0Aux p fuel rest (v :: acc)

def pmany0 (p : Input → PRes α) (input : Input) : PRes (List α) :=
  many0Aux p (input.length + 1) input []

/-- nom `separated_list1(sep, item)`. -/
def sepList1Aux (sep : Input → PRes α) (item : Input → PRes β) :
    Nat → Input → List β → PRes (List β)
  | 0, input, _ => .err [(input, "Fuel")]
  | fuel + 1, input, acc =>
    match sep input with
    | .err _ => .ok input acc.reverse
    | .fail e => .fail e
    | .ok r1 _ =>
      match item r1 with
      | .err _ => .ok input acc.reverse
      | .fail e => .fail e
      | .ok r2 v =>
        if r2 = input then .err [(input, "SeparatedList")]
        else sepList1Aux sep item fuel r2 (v :: acc)

def psepList1 (sep : Input → PRes α) (item : Input → PRes β) (input : Input) :
    PRes (List β) :=
  match item input with
  | .err e => .err e
  | .fail e => .fail e
  | .ok r v => sepList1Aux sep item (r.length + 1) r [v]

/-! ### terminal.rs -/

namespace Terminal

/-- `terminal::bom`. -/
def bom : Input → PRes Bool :=
  pmap (popt (pchar (Char.ofNat 0xFEFF))) Option.isSome

/-- `character::complete::line_ending`: LF or CR+LF; a bare CR fails. -/
def lineEndingRaw (input : Input) : PRes Input :=
  match input with
  | '\n' :: rest => .ok rest ['\n']
  | '\r' :: '\n' :: rest => .ok rest ['\r', '\n']
  | _ => .err [(input, "CrLf")]

/-- `terminal::line_ending`. -/
def lineEnding : Input → PRes Input :=
  pvalue (str "\n") lineEndingRaw

/-- `terminal::line_ending1`. -/
def lineEnding1 : Input → PRes Input :=
  pvalue (str "\n") (pmany1Count lineEndingRaw)

/-- `terminal::reduce_space`. -/
def reduceSpace (spaces : Input) : Input :=
  if spaces = [] then []
  else if spaces.contains '\n' then ['\n']
  else [' ']

def isSpaceTab (c : Char) : Bool := c = ' ' || c = '\t'

def isMultispace (c : Char) : Bool :=
  c = ' ' || c = '\t' || c = '\r' || c = '\n'

/-- `terminal::multispace0`. -/
def multispace0 (input : Input) : PRes Input :=
  let t := input.takeWhile isMultispace
  .ok (input.drop t.length) (reduceSpace t)

/-- `terminal::multispace1`. -/
def multispace1 : Input → PRes Input :=
  pmap (ptakeWhile1 isMultispace "MultiSpace") reduceSpace

/-- `terminal::space0`. -/
def space0 (input : Input) : PRes Input :=
  let t := input.takeWhile isSpaceTab
  .ok (input.drop t.length) (reduceSpace t)

/-- `terminal::space1`. -/
def space1 : Input → PRes Input :=
  pvalue (str " ") (ptakeWhile1 isSpaceTab "Space")

/-- `nom::character::is_alphanumeric(c as u8)`: the Rust code truncates the
    char's scalar value to its low byte before the ASCII-alphanumeric test. -/
def rustAlnumByte (c : Char) : Bool :=
  let b := c.toNat % 256
  (0x30 ≤ b && b ≤ 0x39) || (0x41 ≤ b && b ≤ 0x5A) || (0x61 ≤ b && b ≤ 0x7A)

def nameChar (c : Char) : Bool := rustAlnumByte c || c = '-' || c = '_'

/-- `terminal::name`. -/
def name : Input → PRes Input :=
  ptakeWhile1 nameChar "TakeWhile1"

/-- `terminal::text`'s `escape_sequence`: `preceded(char('\\'), one_of("/~\\|"))`. -/
def escapeSequence : Input → PRes Char :=
  ppreceded (pchar '\\') (poneOf ['/', '~', '\\', '|'])

/-- `terminal::text`'s `non_break`: `preceded(char('/'), none_of("\\/"))`. -/
def nonBreak : Input → PRes Char :=
  ppreceded (pchar '/') (pnoneOf ['\\', '/'])

/-- `terminal::text`'s `medial_line_ending`: `preceded(multispace1, none_of("\\/"))`. -/
def medialLineEnding : Input → PRes Char :=
  ppreceded multispace1 (pnoneOf ['\\', '/'])

/-- `terminal::text`'s `specials`. -/
def specials : Input → PRes Input :=
  precognize (por (por medialLineEnding nonBreak) escapeSequence)

/-- `terminal::text`'s `runs`: `is_not("\\/\r\n").or(specials)`. -/
def runs : Input → PRes Input :=
  por (pisNot ['\\', '/', '\r', '\n']) specials

/-- `terminal::text`. -/
def text : Input → PRes Input :=
  por (precognize (pmany0Count runs)) peof

namespace Marker

/-- `terminal::marker::end`. -/
def markerEnd : Input → PRes Unit :=
  pcontext "end of tag name"
    (pvalue () (paltList
      [multispace1, ppeek (precognize (poneOf ['\\', '|'])), peof]))

/-- `terminal::marker::tag(id)`. -/
def tag (id : Input) : Input → PRes Input :=
  pcontext "marker tag" (pdelimited (pchar '\\') (ptag id) markerEnd)

/-- Modelled from the spec: `terminal::marker::name` is referenced by
    `extension::record` (the `\closes` / `\closedby` field values) but is
    absent from the sources under src/.  Spec 4.1 `markerName`: "a bare
    identifier (letters, digits, `-`, `_`), one-or-more characters" — the
    identifier grammar shared with `terminal::name`. -/
def mname : Input → PRes Input :=
  ptakeWhile1 nameChar "TakeWhile1"

end Marker

/-- `terminal::marker` (generic marker recognizer). -/
def marker : Input → PRes Input :=
  pcontext "marker" (pdelimited (pchar '\\') name Marker.markerEnd)

namespace Attrib

/-- Modelled from the spec: `terminal::attrib::name` is referenced by
    `extension::record` (the `\defattrib` field value) but is absent from the
    sources under src/.  Spec 4.1 `attributeName`: "identifier grammar shared
    with marker names (alphanumeric, `-`, `_`), one-or-more characters". -/
def aname : Input → PRes Input :=
  ptakeWhile1 nameChar "TakeWhile1"

end Attrib

/-- `character::complete::not_line_ending`: consumes up to a line ending;
    a CR not followed by LF is an error. -/
def notLineEnding (input : Input) : PRes Input :=
  let t := input.takeWhile (fun c => c ≠ '\r' && c ≠ '\n')
  let rest := input.drop t.length
  match rest with
  | '\r' :: '\n' :: _ => .ok rest t
  | '\r' :: _ => .err [(input, "Tag")]
  | _ => .ok rest t

end Terminal

/-! ### extension.rs -/

inductive Category where
  | Cell
  | Char
  | Crossreference
  | CrossreferenceChar
  | Footnote
  | FootnoteChar
  | Header
  | Internal
  | IntroChar
  | Introduction
  | List
  | ListChar
  | Milestone
  | OtherPara
  | SectionPara
  | Title
  | VersePara
  | Unknown
deriving DecidableEq, Repr

/-- `impl Display for Category`: the debug name lowercased. -/
def Category.display : Category → Input
  | .Cell => str "cell"
  | .Char => str "char"
  | .Crossreference => str "crossreference"
  | .CrossreferenceChar => str "crossreferencechar"
  | .Footnote => str "footnote"
  | .FootnoteChar => str "footnotechar"
  | .Header => str "header"
  | .Internal => str "internal"
  | .IntroChar => str "introchar"
  | .Introduction => str "introduction"
  | .List => str "list"
  | .ListChar => str "listchar"
  | .Milestone => str "milestone"
  | .OtherPara => str "otherpara"
  | .SectionPara => str "sectionpara"
  | .Title => str "title"
  | .VersePara => str "versepara"
  | .Unknown => str "unknown"

/-- `extension::category`: the alternation in source order. -/
def category : Input → PRes Category :=
  pcontext "Category" (paltList
    [ pvalue Category.Cell (ptagNoCase (str "cell"))
    , pvalue Category.VersePara (ptagNoCase (str "versepara"))
    , pvalue Category.Char (ptagNoCase (str "char"))
    , pvalue Category.Introduction (ptagNoCase (str "introduction"))
    , pvalue Category.SectionPara (ptagNoCase (str "sectionpara"))
    , pvalue Category.Milestone (ptagNoCase (str "milestone"))
    , pvalue Category.Internal (ptagNoCase (str "internal"))
    , pvalue Category.ListChar (ptagNoCase (str "listchar"))
    , pvalue Category.List (ptagNoCase (str "list"))
    , pvalue Category.Header (ptagNoCase (str "header"))
    , pvalue Category.CrossreferenceChar (ptagNoCase (str "crossreferencechar"))
    , pvalue Category.FootnoteChar (ptagNoCase (str "footnotechar"))
    , pvalue Category.OtherPara (ptagNoCase (str "otherpara"))
    , pvalue Category.Footnote (ptagNoCase (str "footnote"))
    , pvalue Category.Title (ptagNoCase (str "title"))
    , pvalue Category.Crossreference (ptagNoCase (str "crossreference"))
    , pvalue Category.IntroChar (ptagNoCase (str "introchar"))
    ])

/-- Association-list model of `std::collections::HashMap` insertion: an
    existing key's value is replaced, otherwise the pair is appended. -/
def alInsert {V : Type} (m : List (Input × V)) (k : Input) (v : V) :
    List (Input × V) :=
  match m with
  | [] => [(k, v)]
  | (k2, v2) :: rest =>
    if k2 = k then (k, v) :: rest else (k2, v2) :: alInsert rest k v

/-- Association-list model of `HashMap::get`. -/
def alLookup {V : Type} (m : List (Input × V)) (k : Input) : Option V :=
  match m with
  | [] => none
  | (k2, v2) :: rest => if k2 = k then some v2 else alLookup rest k

/-- `type Attributes = HashMap<String, bool>`. -/
abbrev Attributes := List (Input × Bool)

/-- `HashMap::extend` / `FromIterator`: insert every pair in order. -/
def alExtend {V : Type} (m : List (Input × V)) (l : List (Input × V)) :
    List (Input × V) :=
  l.foldl (fun t kv => alInsert t kv.1 kv.2) m

structure Marker where
  name : Input
  attributes : Attributes
  category : Category
  closes : Option Input
  closedby : Option Input
  default : Option Input
  description : Option Input
deriving DecidableEq, Repr

/-- `Marker::update_from`.  The leading `assert_eq!(self.name, overrides.name)`
    aborts the process when the names differ; that abort is modelled as
    `none`.  Note the source never assigns `self.category`. -/
def Marker.updateFrom (self overrides : Marker) : Option Marker :=
  if self.name ≠ overrides.name then none
  else some
    { self with
      closes := if overrides.closes.isSome then overrides.closes else self.closes
      closedby := if overrides.closedby.isSome then overrides.closedby else self.closedby
      default := if overrides.default.isSome then overrides.default else self.default
      description := if overrides.description.isSome then overrides.description else self.description
      attributes := alExtend self.attributes overrides.attributes }

/-- `impl Display for Marker`.  Faithful to the source, including the branch
    that writes `\category` again (not `\attributes`) when the attribute map
    is non-empty, and the absence of separators between fields. -/
def Marker.display (m : Marker) : Input :=
  str "\\marker " ++ m.name
  ++ (if m.category ≠ Category.Unknown then str "\\category " ++ m.category.display else [])
  ++ (if m.attributes ≠ [] then str "\\category " ++ m.category.display else [])
  ++ (match m.closes with | some c => str "\\closes " ++ c | none => [])
  ++ (match m.closedby with | some c => str "\\closedby " ++ c | none => [])
  ++ (match m.default with | some c => str "\\defattrib " ++ c | none => [])
  ++ (match m.description with | some c => str "\\description " ++ c | none => [])

/-- `extension::field(id, value)`. -/
def fieldP (id : Input) (value : Input → PRes α) : Input → PRes α :=
  pcontext "record field"
    (pdelimited (pand (Terminal.Marker.tag id) Terminal.space0) value
      (por Terminal.lineEnding peof))

/-- `record`'s `attribute`: `terminal::name.and(opt(char('?')).map(is_some))`. -/
def attributeP : Input → PRes (Input × Bool) :=
  pand Terminal.name (pmap (popt (pchar '?')) Option.isSome)

/-- `record`'s `attributes`: `separated_list1(terminal::space1, attribute)`. -/
def attributesP : Input → PRes (List (Input × Bool)) :=
  psepList1 Terminal.space1 attributeP

/-- The permutation body of `extension::record`.  nom's `permutation` retries
    the component parsers in source order until all have succeeded; every
    component here (each `opt(...)` or `...or(success(...))`) succeeds on any
    input, so the permutation is exactly one application of each component in
    source order. -/
def recordFields : Input → PRes
    (Option (List (Input × Bool)) × Category × Option Input × Option Input ×
     Option Input × Option Input) :=
  pbind (popt (fieldP (str "attributes") attributesP)) fun attrs =>
  pbind (por (fieldP (str "category") category) (psuccess Category.Unknown)) fun cat =>
  pbind (popt (fieldP (str "closes") Terminal.Marker.mname)) fun closes =>
  pbind (popt (fieldP (str "closedby") Terminal.Marker.mname)) fun closedby =>
  pbind (popt (fieldP (str "defattrib") Terminal.Attrib.aname)) fun defattrib =>
  pmap (popt (fieldP (str "description") Terminal.notLineEnding)) fun descr =>
  (attrs, cat, closes, closedby, defattrib, descr)

/-- `extension::record`. -/
def record (input : Input) : PRes Marker :=
  match fieldP (str "marker") Terminal.name input with
  | .err e => .err e
  | .fail e => .fail e
  | .ok r1 nm =>
    (pmap (pcut (pterminated recordFields (por Terminal.lineEnding1 peof)))
      (fun f =>
        { name := nm
          attributes := alExtend [] (f.1.getD [])
          category := f.2.1
          closes := f.2.2.1
          closedby := f.2.2.2.1
          default := f.2.2.2.2.1
          description := f.2.2.2.2.2 : Marker })) r1

/-- `Extensions` (a `HashMap<String, Marker>`). -/
abbrev Extensions := List (Input × Marker)

/-- `str::trim` (both inputs here are ASCII, where Rust's Unicode
    `White_Space` trimming and `Char.isWhitespace` agree). -/
def rustTrim (input : Input) : Input :=
  ((input.dropWhile Char.isWhitespace).reverse.dropWhile Char.isWhitespace).reverse

/-- `nom::combinator::iterator(input, record)` followed by
    `it.finish()`: repeatedly applies `record`, collecting results; a
    recoverable error stops the iteration and `finish` returns the remaining
    input as a success; a `Failure` is returned by `finish` as the error.
    `record` always consumes input when it succeeds, so the fuel
    (`input.length + 1` at top level) never runs out. -/
def iterRecords : Nat → Input → List Marker → (List Marker × PRes Unit)
  | 0, input, acc => (acc.reverse, .err [(input, "Fuel")])
  | fuel + 1, input, acc =>
    match record input with
    | .err _ => (acc.reverse, .ok input ())
    | .fail e => (acc.reverse, .fail e)
    | .ok rest m => iterRecords fuel rest (m :: acc)

/-- The records yielded by the iterator on (trimmed) input. -/
def parsedRecords (input : Input) : List Marker :=
  (iterRecords (input.length + 1) input []).1

/-- Result type for `Extensions::update_from_str`: `io::Result<Extensions>`
    plus an explicit `panic` outcome for the `assert_eq!` abort inside
    `Marker::update_from`. -/
inductive UpdResult where
  | ok (tbl : Extensions)
  | err (e : PError)
  | panic
deriving DecidableEq, Repr

/-- One iteration of the `for m in it` loop of `update_from_str`:
    `self.0.entry(m.name.clone()).and_modify(|e| e.update_from(m.clone())).or_insert(m)`. -/
def updStep (tbl : Extensions) (m : Marker) : Option Extensions :=
  match alLookup tbl m.name with
  | some old => (old.updateFrom m).map (fun merged => alInsert tbl m.name merged)
  | none => some (alInsert tbl m.name m)

def updFold (tbl : Extensions) : List Marker → UpdResult
  | [] => .ok tbl
  | m :: ms =>
    match updStep tbl m with
    | none => .panic
    | some t => updFold t ms

/-- `Extensions::update_from_str`.  The Rust loop interleaves parsing and
    merging, but `record` does not depend on the table, so iterating the
    records first and folding the merge step over them is the same function.
    The merges performed before a later `Failure` are discarded with the
    table, exactly as the Rust version returns `Err` and drops `self`. -/
def updateFromStr (tbl : Extensions) (input : Input) : UpdResult :=
  let inp := rustTrim input
  match iterRecords (inp.length + 1) inp [] with
  | (ms, .ok _ _) => updFold tbl ms
  | (_, .err e) => .err e
  | (_, .fail e) => .err e

/-- `Extensions::from_reader` on an already-read string, which is how every
    claim exercises it (`io::read_to_string` errors are outside the model). -/
def fromReader (input : Input) : Except PError Extensions :=
  let inp := rustTrim input
  match iterRecords (inp.length + 1) inp [] with
  | (ms, .ok _ _) =>
    .ok ((ms.map (fun m => (m.name, m))).foldl (fun t kv => alInsert t kv.1 kv.2) [])
  | (_, .err e) => .error e
  | (_, .fail e) => .error e

/-- `impl From<&str> for Extensions`: `update_from_str` on an empty table,
    with `.expect(...)`, which aborts the process on an `Err`; the abort (and
    a propagated `assert_eq!` abort) is modelled as `none`. -/
def extensionsFromStr (input : Input) : Option Extensions :=
  match updateFromStr [] input with
  | .ok t => some t
  | _ => none

/-! ### document.rs -/

mutual
inductive Content where
  | text (s : Input)
  | para (n : Node)
  | book (n : Node)
  | optBreak

inductive Node where
  | mk (style : Input) (attributes : List (Input × Input)) (content : List Content)
end

def Node.style : Node → Input
  | .mk s _ _ => s

def Node.attributes : Node → List (Input × Input)
  | .mk _ a _ => a

def Node.content : Node → List Content
  | .mk _ _ c => c

/-- `State::text`. -/
def stateText : Input → PRes Content :=
  pmap Terminal.text Content.text

/-- `State::optbreak`. -/
def optbreak : Input → PRes Content :=
  pvalue Content.optBreak (ptag (str "\\"))

/-- `State::identification`'s book-code check: the fold counts ASCII-uppercase
    characters and ASCII-digit characters of the 3-character span and the
    `verify` requires their sum to be at most 3. -/
def codeCounts (s : Input) : Nat × Nat :=
  s.foldl
    (fun ab c =>
      (ab.1 + (if c.isUpper then 1 else 0), ab.2 + (if c.isDigit then 1 else 0)))
    (0, 0)

def codeCheck (s : Input) : Bool :=
  (codeCounts s).1 + (codeCounts s).2 ≤ 3

/-- `State::identification`'s `code` parser:
    `terminated(verify(take(3usize), ...), terminal::space1)`. -/
def idCode : Input → PRes Input :=
  pterminated (pverify (ptake 3) codeCheck) Terminal.space1

/-- `digit1`. -/
def digit1P : Input → PRes Input :=
  ptakeWhile1 (fun c => c.isDigit) "Digit"

def digitsToNat (ds : Input) : Nat :=
  ds.foldl (fun a c => a * 10 + (c.toNat - 48)) 0

/-- `nom::number::complete::float`, modelled: recognizes
    `[+-]? ( digit1 ('.' digit1?)? | '.' digit1 ) ([eE][+-]? cut(digit1))?`
    and converts the decimal text; `f32` values are modelled as the exact
    rationals the text denotes (the `inf`/`nan` special forms accepted by nom
    are outside the inputs of any claim and are omitted). -/
def floatP (input : Input) : PRes ℚ :=
  let signSplit : Input × Bool :=
    match input with
    | '+' :: r => (r, false)
    | '-' :: r => (r, true)
    | _ => (input, false)
  let r1 := signSplit.1
  let mant : Option (Input × ℚ) :=
    match digit1P r1 with
    | .ok r2 ds =>
      match r2 with
      | '.' :: r3 =>
        match digit1P r3 with
        | .ok r4 fs =>
          some (r4, (digitsToNat ds : ℚ) + (digitsToNat fs : ℚ) / ((10 : ℚ) ^ fs.length))
        | _ => some (r3, (digitsToNat ds : ℚ))
      | _ => some (r2, (digitsToNat ds : ℚ))
    | _ =>
      match r1 with
      | '.' :: r3 =>
        match digit1P r3 with
        | .ok r4 fs => some (r4, (digitsToNat fs : ℚ) / ((10 : ℚ) ^ fs.length))
        | _ => none
      | _ => none
  match mant with
  | none => .err [(input, "Float")]
  | some (r2, q0) =>
    let q1 := if signSplit.2 then -q0 else q0
    match r2 with
    | e :: r3 =>
      if e = 'e' || e = 'E' then
        let esign : Input × Bool :=
          match r3 with
          | '+' :: r => (r, false)
          | '-' :: r => (r, true)
          | _ => (r3, false)
        match digit1P esign.1 with
        | .ok r5 es =>
          let ex : ℤ := if esign.2 then -(digitsToNat es : ℤ) else (digitsToNat es : ℤ)
          .ok r5 (q1 * (10 : ℚ) ^ ex)
        | _ => .fail [(esign.1, "Digit")]
      else .ok r2 q1
    | [] => .ok r2 q1

/-- The `\id` line of `State::identification`:
    `delimited(marker::tag("id"), code.and(opt(Self::text)), line_ending1)`. -/
def idHead : Input → PRes (Input × Option Content) :=
  pdelimited (Terminal.Marker.tag (str "id"))
    (pand idCode (popt stateText)) Terminal.lineEnding1

/-- The optional `\usfm` line of `State::identification`:
    `opt(delimited(marker::tag("usfm"), cut(float), line_ending1))`. -/
def usfmOpt : Input → PRes (Option ℚ) :=
  popt (pdelimited (Terminal.Marker.tag (str "usfm")) (pcut floatP) Terminal.lineEnding1)

/-- `State::identification`, with the `version` field of the state passed and
    returned explicitly. -/
def identification (version : ℚ) (input : Input) : PRes (Content × ℚ) :=
  match Terminal.bom input with
  | .err e => .err e
  | .fail e => .fail e
  | .ok r0 _ =>
    match idHead r0 with
    | .err e => .err e
    | .fail e => .fail e
    | .ok r1 ct =>
      match usfmOpt r1 with
      | .err e => .err e
      | .fail e => .fail e
      | .ok r2 over =>
        .ok r2
          (Content.book
            (Node.mk (str "id") [(str "code", ct.1)]
              (match ct.2 with | some t => [t] | none => [])),
           over.getD version)

/-- `State::marker` (the category gate): recognizes a generic marker, looks it
    up in the table and compares categories; an unknown name and a mismatched
    category both produce `Err::Error(make_error(input, ErrorKind::Tag))` at
    the post-marker position. -/
def markerGate (tbl : Extensions) (cat : Category) (input : Input) : PRes Input :=
  match Terminal.marker input with
  | .ok rest style =>
    match alLookup tbl style with
    | some m =>
      if m.category = cat then .ok rest style
      else .err [(rest, "Tag")]
    | none => .err [(rest, "Tag")]
  | .err e => .err e
  | .fail e => .fail e

/-- `State::titles`. -/
def titles (tbl : Extensions) (input : Input) : PRes (List Content) :=
  let mk := por (markerGate tbl Category.Title) (Terminal.Marker.tag (str "rem"))
  let content := paltList [stateText, optbreak]
  let title :=
    pmap (pterminated (pand mk content) Terminal.lineEnding1)
      (fun sr => Content.para (Node.mk sr.1 [] [sr.2]))
  pmany0 title input

/-! ### Derived definitions used by the verification -/

def optOr {α : Type} (a b : Option α) : Option α :=
  match a with
  | some x => some x
  | none => b

/-- The last value bound to key `k` by the pair list `l`, starting from a
    current binding `i` (a left scan where later pairs win). -/
def scanLast {V : Type} (l : List (Input × V)) (i : Option V) (k : Input) : Option V :=
  l.foldl (fun acc kv => if kv.1 = k then some kv.2 else acc) i

/-- The last record named `n` in a parsed record list (later records win),
    exactly the binding a `HashMap` collected from the iterator would hold. -/
def lastRecord (ms : List Marker) (n : Input) : Option Marker :=
  scanLast (ms.map (fun m => (m.name, m))) none n

/-- The field-level merge of one parsed record into the current binding for
    its name: an absent binding takes the record as-is; an existing binding
    keeps `name` and `category`, each `Option` field present in the new
    record overwrites the old one, and the new attribute entries are inserted
    into (unioned with) the old attribute mapping. -/
def mergeInto (cur : Option Marker) (m : Marker) : Marker :=
  match cur with
  | none => m
  | some old =>
    { old with
      closes := if m.closes.isSome then m.closes else old.closes
      closedby := if m.closedby.isSome then m.closedby else old.closedby
      default := if m.default.isSome then m.default else old.default
      description := if m.description.isSome then m.description else old.description
      attributes := alExtend old.attributes m.attributes }

/-- The per-name trace of merging a list of same-named records in order. -/
def mergeTrace (cur : Option Marker) : List Marker → Option Marker
  | [] => cur
  | m :: ms => mergeTrace (some (mergeInto cur m)) ms

/-- Well-formedness of a table: every entry is keyed by its marker's name.
    Every table the module builds satisfies this. -/
def WFtbl (tbl : Extensions) : Prop :=
  ∀ kv ∈ tbl, (kv.2 : Marker).name = kv.1

/-- A parser that never returns the non-recoverable `fail` variant. -/
def NoFail (p : Input → PRes α) : Prop :=
  ∀ i e, p i ≠ .fail e

/-! ### Concrete fixtures for the claims -/

/-- A base-table marker named `m` of category `Char` carrying an attribute
    and a description. -/
def mCharMarker : Marker :=
  { name := str "m", attributes := [(str "x", true)], category := Category.Char
    closes := none, closedby := none, default := none
    description := some (str "old") }

def c1Base : Extensions := [(str "m", mCharMarker)]

/-- An extension source whose record for `m` carries `\category internal`
    (a category value present, and different from the base's). -/
def c1Src : Input := str "\\marker m\n\\category internal\n"

/-- The marker produced by parsing `\marker test\n\category internal\n`. -/
def testMarker : Marker :=
  { name := str "test", attributes := [], category := Category.Internal
    closes := none, closedby := none, default := none, description := none }

/-- A table registering `mt` with category `Title`. -/
def mtTbl : Extensions :=
  [(str "mt",
    { name := str "mt", attributes := [], category := Category.Title
      closes := none, closedby := none, default := none, description := none })]

/-- A source defining the same marker name `a` twice. -/
def c6Src : Input :=
  str "\\marker a\n\\category char\n\\description one\n\n\\marker a\n\\category internal\n"

/-- The table `from_reader` builds from `c6Src`: the second `a` record whole,
    the first one gone. -/
def c6Tbl : Extensions :=
  [(str "a",
    { name := str "a", attributes := [], category := Category.Internal
      closes := none, closedby := none, default := none, description := none })]

/-- A source whose record commits (valid `\marker` line) and then has
    unparsable remaining content. -/
def c5Src : Input := str "\\marker test\ngarbage"

def c7Src1 : Input := str "\\id MAT 41MATGNT92.SFM, Good News Translation, June 2003\n"

def c7Src2 : Input :=
  str "\\id MAT 41MATGNT92.SFM, Good News Translation, June 2003\n\\usfm 3.1\n"

def c7Node : Content :=
  Content.book
    (Node.mk (str "id") [(str "code", str "MAT")]
      [Content.text (str "41MATGNT92.SFM, Good News Translation, June 2003")])

/-! ### Helper lemmas: association lists -/

theorem alLookup_alInsert {V : Type} (t : List (Input × V)) (k n : Input) (v : V) :
    alLookup (alInsert t k v) n = if k = n then some v else alLookup t n := by
  induction t with
  | nil => simp [alInsert, alLookup]
  | cons kv t ih =>
    obtain ⟨k2, v2⟩ := kv
    simp only [alInsert]
    by_cases h : k2 = k
    · rw [if_pos h]; subst h
      simp only [alLookup]
      split_ifs <;> simp_all
    · rw [if_neg h]
      simp only [alLookup, ih]
      split_ifs <;> simp_all

theorem alLookup_mem {V : Type} {t : List (Input × V)} {k : Input} {v : V}
    (h : alLookup t k = some v) : (k, v) ∈ t := by
  induction t with
  | nil => simp [alLookup] at h
  | cons kv t ih =>
    obtain ⟨k2, v2⟩ := kv
    simp only [alLookup] at h
    split_ifs at h with h2
    · injection h with h3
      subst h2; subst h3
      exact List.mem_cons_self _ _
    · exact List.mem_cons_of_mem _ (ih h)

theorem WFtbl_alInsert {t : Extensions} {k : Input} {v : Marker}
    (hw : WFtbl t) (hv : v.name = k) : WFtbl (alInsert t k v) := by
  induction t with
  | nil =>
    intro kv hm
    simp only [alInsert, List.mem_singleton] at hm
    subst hm; exact hv
  | cons kv2 t ih =>
    obtain ⟨k2, v2⟩ := kv2
    have hw2 : WFtbl t := fun kv hm => hw kv (List.mem_cons_of_mem _ hm)
    intro kv hm
    simp only [alInsert] at hm
    split_ifs at hm with h2
    · rcases List.mem_cons.mp hm with h3 | hm2
      · subst h3; exact hv
      · exact hw _ (List.mem_cons_of_mem _ hm2)
    · rcases List.mem_cons.mp hm with h3 | hm2
      · subst h3; exact hw _ (List.mem_cons_self _ _)
      · exact ih hw2 _ hm2

theorem alExtend_lookup {V : Type} :
    ∀ (l : List (Input × V)) (t0 : List (Input × V)) (k : Input),
      alLookup (alExtend t0 l) k = scanLast l (alLookup t0 k) k := by
  intro l
  induction l with
  | nil => intro t0 k; rfl
  | cons kv l ih =>
    intro t0 k
    show alLookup (alExtend (alInsert t0 kv.1 kv.2) l) k = _
    rw [ih, alLookup_alInsert]
    rfl

/-! ### Helper lemmas: the merge fold -/

theorem updateFrom_eq {old m : Marker} {merged : Marker}
    (h : old.updateFrom m = some merged) :
    old.name = m.name ∧ merged = mergeInto (some old) m := by
  unfold Marker.updateFrom at h
  by_cases hn : old.name ≠ m.name
  · rw [if_pos hn] at h; cases h
  · rw [if_neg hn] at h
    injection h with h2
    refine ⟨not_ne_iff.mp hn, ?_⟩
    rw [← h2]
    rfl

theorem updateFrom_none {old m : Marker} (h : old.updateFrom m = none) :
    old.name ≠ m.name := by
  unfold Marker.updateFrom at h
  by_cases hn : old.name ≠ m.name
  · exact hn
  · rw [if_neg hn] at h; cases h

/-- The table after one `updStep`, at every name. -/
theorem updStep_lookup {tbl t : Extensions} {m : Marker}
    (hs : updStep tbl m = some t) (n : Input) :
    alLookup t n =
      if m.name = n then some (mergeInto (alLookup tbl n) m) else alLookup tbl n := by
  have hs2 : (match alLookup tbl m.name with
      | some old => Option.map (fun merged => alInsert tbl m.name merged) (old.updateFrom m)
      | none => some (alInsert tbl m.name m)) = some t := hs
  cases hl : alLookup tbl m.name with
  | none =>
    rw [hl] at hs2
    have hs3 : some (alInsert tbl m.name m) = some t := hs2
    injection hs3 with hs4
    subst hs4
    rw [alLookup_alInsert]
    by_cases hn : m.name = n
    · subst hn
      rw [if_pos rfl, if_pos rfl, hl]
      rfl
    · rw [if_neg hn, if_neg hn]
  | some old =>
    rw [hl] at hs2
    have hs3 : Option.map (fun merged => alInsert tbl m.name merged)
        (old.updateFrom m) = some t := hs2
    cases hm : old.updateFrom m with
    | none => rw [hm] at hs3; cases hs3
    | some merged =>
      rw [hm] at hs3
      have hs4 : some (alInsert tbl m.name merged) = some t := hs3
      injection hs4 with hs5
      subst hs5
      obtain ⟨_, hmg⟩ := updateFrom_eq hm
      rw [alLookup_alInsert]
      by_cases hn : m.name = n
      · subst hn
        rw [if_pos rfl, if_pos rfl, hl, hmg]
      · rw [if_neg hn, if_neg hn]

theorem updFold_lookup :
    ∀ (ms : List Marker) (tbl out : Extensions), updFold tbl ms = .ok out →
      ∀ n, alLookup out n =
        mergeTrace (alLookup tbl n) (ms.filter (fun m => m.name == n)) := by
  intro ms
  induction ms with
  | nil =>
    intro tbl out h n
    injection h with h2
    subst h2
    rfl
  | cons m ms ih =>
    intro tbl out h n
    unfold updFold at h
    cases hs : updStep tbl m with
    | none =>
      rw [hs] at h
      have h3 : UpdResult.panic = UpdResult.ok out := h
      cases h3
    | some t =>
      rw [hs] at h
      have h2 : updFold t ms = .ok out := h
      have hout := ih t out h2 n
      have hstep := updStep_lookup hs n
      by_cases hn : m.name = n
      · have hb : (m.name == n) = true := by simp [hn]
        simp only [List.filter_cons, hb, if_true]
        rw [hout, hstep, if_pos hn]
        rfl
      · have hb : (m.name == n) = false := by simp [hn]
        simp only [List.filter_cons, hb, Bool.false_eq_true, if_false]
        rw [hout, hstep, if_neg hn]

theorem updFold_no_panic :
    ∀ (ms : List Marker) (tbl : Extensions), WFtbl tbl →
      updFold tbl ms ≠ .panic := by
  intro ms
  induction ms with
  | nil => intro tbl _ h; cases h
  | cons m ms ih =>
    intro tbl hw
    unfold updFold
    cases hs0 : updStep tbl m with
    | none =>
      exfalso
      have hs1 : (match alLookup tbl m.name with
          | some old => Option.map (fun merged => alInsert tbl m.name merged) (old.updateFrom m)
          | none => some (alInsert tbl m.name m)) = none := hs0
      cases hl : alLookup tbl m.name with
      | none =>
        rw [hl] at hs1
        cases hs1
      | some old =>
        rw [hl] at hs1
        have hname : old.name = m.name := hw _ (alLookup_mem hl)
        have hs2 : Option.map (fun merged => alInsert tbl m.name merged)
            (old.updateFrom m) = none := hs1
        cases hm : old.updateFrom m with
        | none => exact updateFrom_none hm hname
        | some merged => rw [hm] at hs2; cases hs2
    | some t =>
      have hwt : WFtbl t := by
        have hs1 : (match alLookup tbl m.name with
            | some old => Option.map (fun merged => alInsert tbl m.name merged) (old.updateFrom m)
            | none => some (alInsert tbl m.name m)) = some t := hs0
        cases hl : alLookup tbl m.name with
        | none =>
          rw [hl] at hs1
          have hs3 : some (alInsert tbl m.name m) = some t := hs1
          injection hs3 with hs4
          subst hs4
          exact WFtbl_alInsert hw rfl
        | some old =>
          rw [hl] at hs1
          have hs2 : Option.map (fun merged => alInsert tbl m.name merged)
              (old.updateFrom m) = some t := hs1
          cases hm : old.updateFrom m with
          | none => rw [hm] at hs2; cases hs2
          | some merged =>
            rw [hm] at hs2
            have hs3 : some (alInsert tbl m.name merged) = some t := hs2
            injection hs3 with hs4
            subst hs4
            obtain ⟨hn2, hmerged⟩ := updateFrom_eq hm
            have hmn : merged.name = m.name := by
              rw [hmerged]
              simpa [mergeInto] using hn2
            exact WFtbl_alInsert hw hmn
      exact ih t hwt

/-! ### Helper lemmas: totality of the text tokenizer -/

theorem takeWhile_length_le (p : Char → Bool) :
    ∀ (l : List Char), (l.takeWhile p).length ≤ l.length := by
  intro l
  induction l with
  | nil => simp
  | cons a t ih =>
    simp only [List.takeWhile_cons]
    split
    · simpa using Nat.succ_le_succ ih
    · simp

theorem ptakeWhile1_lt {pred : Char → Bool} {kind : String} {input rest v : Input}
    (h : ptakeWhile1 pred kind input = .ok rest v) : rest.length < input.length := by
  unfold ptakeWhile1 at h
  by_cases he : (input.takeWhile pred).isEmpty
  · simp only [he, if_true] at h
    cases h
  · simp only [he, Bool.false_eq_true, if_false] at h
    injection h with h1 h2
    have hle := takeWhile_length_le pred input
    have hpos : 0 < (input.takeWhile pred).length := by
      cases hq : input.takeWhile pred with
      | nil => rw [hq] at he; simp at he
      | cons a t => simp [hq]
    rw [← h1]
    simp only [List.length_drop]
    omega

theorem pchar_lt {c : Char} {input rest : Input} {v : Char}
    (h : pchar c input = .ok rest v) : rest.length < input.length := by
  cases input with
  | nil => simp [pchar] at h
  | cons c2 t =>
    simp only [pchar] at h
    by_cases he : c2 = c
    · rw [if_pos he] at h
      injection h with h1 _
      rw [← h1]
      simp
    · rw [if_neg he] at h
      cases h

theorem poneOf_lt {set : List Char} {input rest : Input} {v : Char}
    (h : poneOf set input = .ok rest v) : rest.length < input.length := by
  cases input with
  | nil => simp [poneOf] at h
  | cons c t =>
    simp only [poneOf] at h
    by_cases he : set.contains c = true
    · rw [if_pos he] at h
      injection h with h1 _
      rw [← h1]
      simp
    · rw [if_neg he] at h
      cases h

theorem pnoneOf_lt {set : List Char} {input rest : Input} {v : Char}
    (h : pnoneOf set input = .ok rest v) : rest.length < input.length := by
  cases input with
  | nil => simp [pnoneOf] at h
  | cons c t =>
    simp only [pnoneOf] at h
    by_cases he : set.contains c = true
    · rw [if_pos he] at h
      cases h
    · rw [if_neg he] at h
      injection h with h1 _
      rw [← h1]
      simp

theorem ppreceded_lt {a : Input → PRes α} {b : Input → PRes β}
    (ha : ∀ {i r : Input} {v : α}, a i = .ok r v → r.length < i.length)
    (hb : ∀ {i r : Input} {v : β}, b i = .ok r v → r.length < i.length)
    {i r : Input} {v : β} (h : ppreceded a b i = .ok r v) : r.length < i.length := by
  unfold ppreceded pbind at h
  cases h1 : a i with
  | ok r1 v1 =>
    simp only [h1] at h
    exact lt_trans (hb h) (ha h1)
  | err e => simp only [h1] at h; cases h
  | fail e => simp only [h1] at h; cases h

theorem pmap_ok {p : Input → PRes α} {f : α → β} {i r : Input} {v : β}
    (h : pmap p f i = .ok r v) : ∃ v0, p i = .ok r v0 := by
  unfold pmap at h
  cases h1 : p i with
  | ok r1 v1 =>
    simp only [h1] at h
    injection h with ha hb
    exact ⟨v1, by rw [ha]⟩
  | err e => simp only [h1] at h; cases h
  | fail e => simp only [h1] at h; cases h

theorem multispace1_lt {i r v : Input}
    (h : Terminal.multispace1 i = .ok r v) : r.length < i.length := by
  obtain ⟨v0, h2⟩ := pmap_ok h
  exact ptakeWhile1_lt h2

theorem precognize_lt {p : Input → PRes α}
    (hp : ∀ {i r : Input} {v : α}, p i = .ok r v → r.length < i.length)
    {i r v : Input} (h : precognize p i = .ok r v) : r.length < i.length := by
  unfold precognize at h
  cases h1 : p i with
  | ok r1 v1 =>
    simp only [h1] at h
    injection h with ha hb
    exact ha ▸ hp h1
  | err e => simp only [h1] at h; cases h
  | fail e => simp only [h1] at h; cases h

theorem por_lt {p q : Input → PRes α}
    (hp : ∀ {i r : Input} {v : α}, p i = .ok r v → r.length < i.length)
    (hq : ∀ {i r : Input} {v : α}, q i = .ok r v → r.length < i.length)
    {i r : Input} {v : α} (h : por p q i = .ok r v) : r.length < i.length := by
  unfold por at h
  cases h1 : p i with
  | ok r1 v1 =>
    simp only [h1] at h
    injection h with ha hb
    exact ha ▸ hp h1
  | fail e => simp only [h1] at h; cases h
  | err e =>
    simp only [h1] at h
    cases h2 : q i with
    | ok r1 v1 =>
      simp only [h2] at h
      injection h with ha hb
      exact ha ▸ hq h2
    | err e2 => simp only [h2] at h; cases h
    | fail e2 => simp only [h2] at h; cases h

theorem runs_lt {i r v : Input}
    (h : Terminal.runs i = .ok r v) : r.length < i.length := by
  unfold Terminal.runs at h
  refine por_lt (fun h => ptakeWhile1_lt h) (fun h => ?_) h
  unfold Terminal.specials at h
  refine precognize_lt (fun h => ?_) h
  refine por_lt (por_lt ?_ ?_) ?_ h
  · exact fun h => ppreceded_lt (fun h => multispace1_lt h) (fun h => pnoneOf_lt h) h
  · exact fun h => ppreceded_lt (fun h => pchar_lt h) (fun h => pnoneOf_lt h) h
  · exact fun h => ppreceded_lt (fun h => pchar_lt h) (fun h => poneOf_lt h) h

theorem ptakeWhile1_no_fail (pred : Char → Bool) (kind : String) :
    ∀ (i : Input) (e : PError), ptakeWhile1 pred kind i ≠ .fail e := by
  intro i e h
  unfold ptakeWhile1 at h
  by_cases he : (i.takeWhile pred).isEmpty = true
  · rw [if_pos he] at h; cases h
  · rw [if_neg he] at h; cases h

theorem pchar_no_fail (c : Char) : ∀ (i : Input) (e : PError), pchar c i ≠ .fail e := by
  intro i e h
  cases i with
  | nil => simp [pchar] at h
  | cons c2 t =>
    simp only [pchar] at h
    by_cases he : c2 = c
    · rw [if_pos he] at h; cases h
    · rw [if_neg he] at h; cases h

theorem poneOf_no_fail (set : List Char) :
    ∀ (i : Input) (e : PError), poneOf set i ≠ .fail e := by
  intro i e h
  cases i with
  | nil => simp [poneOf] at h
  | cons c t =>
    simp only [poneOf] at h
    by_cases he : set.contains c = true
    · rw [if_pos he] at h; cases h
    · rw [if_neg he] at h; cases h

theorem pnoneOf_no_fail (set : List Char) :
    ∀ (i : Input) (e : PError), pnoneOf set i ≠ .fail e := by
  intro i e h
  cases i with
  | nil => simp [pnoneOf] at h
  | cons c t =>
    simp only [pnoneOf] at h
    by_cases he : set.contains c = true
    · rw [if_pos he] at h; cases h
    · rw [if_neg he] at h; cases h

theorem pbind_no_fail {a : Input → PRes α} {f : α → Input → PRes β}
    (ha : ∀ (i : Input) (e : PError), a i ≠ .fail e)
    (hf : ∀ (v : α) (i : Input) (e : PError), f v i ≠ .fail e) :
    ∀ (i : Input) (e : PError), pbind a f i ≠ .fail e := by
  intro i e h
  unfold pbind at h
  cases h1 : a i with
  | ok r v => simp only [h1] at h; exact hf v r e h
  | err e2 => simp only [h1] at h; cases h
  | fail e2 => exact ha i e2 h1

theorem pmap_no_fail {p : Input → PRes α} {f : α → β}
    (hp : ∀ (i : Input) (e : PError), p i ≠ .fail e) :
    ∀ (i : Input) (e : PError), pmap p f i ≠ .fail e := by
  intro i e h
  unfold pmap at h
  cases h1 : p i with
  | ok r v => simp only [h1] at h; cases h
  | err e2 => simp only [h1] at h; cases h
  | fail e2 => exact hp i e2 h1

theorem por_no_fail {p q : Input → PRes α}
    (hp : ∀ (i : Input) (e : PError), p i ≠ .fail e)
    (hq : ∀ (i : Input) (e : PError), q i ≠ .fail e) :
    ∀ (i : Input) (e : PError), por p q i ≠ .fail e := by
  intro i e h
  unfold por at h
  cases h1 : p i with
  | ok r v => simp only [h1] at h; cases h
  | fail e2 => exact hp i e2 h1
  | err e2 =>
    simp only [h1] at h
    cases h2 : q i with
    | ok r v => simp only [h2] at h; cases h
    | err e3 => simp only [h2] at h; cases h
    | fail e3 => exact hq i e3 h2

theorem precognize_no_fail {p : Input → PRes α}
    (hp : ∀ (i : Input) (e : PError), p i ≠ .fail e) :
    ∀ (i : Input) (e : PError), precognize p i ≠ .fail e := by
  intro i e h
  unfold precognize at h
  cases h1 : p i with
  | ok r v => simp only [h1] at h; cases h
  | err e2 => simp only [h1] at h; cases h
  | fail e2 => exact hp i e2 h1

theorem runs_no_fail : ∀ (i : Input) (e : PError), Terminal.runs i ≠ .fail e := by
  unfold Terminal.runs Terminal.specials
  refine por_no_fail (ptakeWhile1_no_fail _ _) (precognize_no_fail ?_)
  refine por_no_fail (por_no_fail ?_ ?_) ?_
  · exact pbind_no_fail (pmap_no_fail (ptakeWhile1_no_fail _ _))
      (fun _ => pnoneOf_no_fail _)
  · exact pbind_no_fail (pchar_no_fail _) (fun _ => pnoneOf_no_fail _)
  · exact pbind_no_fail (pchar_no_fail _) (fun _ => poneOf_no_fail _)

theorem many0CountAux_runs_ok :
    ∀ (fuel : Nat) (i : Input) (cnt : Nat), i.length < fuel →
      ∃ rest n, many0CountAux Terminal.runs fuel i cnt = .ok rest n := by
  intro fuel
  induction fuel with
  | zero => intro i cnt h; omega
  | succ f ih =>
    intro i cnt h
    cases hr : Terminal.runs i with
    | err e =>
      refine ⟨i, cnt, ?_⟩
      unfold many0CountAux
      simp only [hr]
    | fail e => exact absurd hr (runs_no_fail i e)
    | ok rest v =>
      have hlt := runs_lt hr
      have hne : rest = i → False := by
        intro he
        rw [he] at hlt
        exact lt_irrefl _ hlt
      obtain ⟨r2, n2, h2⟩ := ih rest (cnt + 1) (by omega)
      refine ⟨r2, n2, ?_⟩
      unfold many0CountAux
      simp only [hr, if_neg hne]
      exact h2

/-- `terminal::text` succeeds on every input (an empty run is a success). -/
theorem text_total : ∀ (i : Input), ∃ rest v, Terminal.text i = .ok rest v := by
  intro i
  obtain ⟨rest, n, h⟩ := many0CountAux_runs_ok (i.length + 1) i 0 (by omega)
  refine ⟨rest, i.take (i.length - rest.length), ?_⟩
  unfold Terminal.text por precognize pmany0Count
  simp only [h]

/-- `pmap` of `pcut` never yields the recoverable error variant. -/
theorem pmap_pcut_not_err (p : Input → PRes α) (f : α → β) (i : Input) :
    (pmap (pcut p) f i).isRecoverableErr = false := by
  unfold pmap pcut
  cases h : p i <;> simp [PRes.isRecoverableErr]

/-- A character cannot be counted both as ASCII uppercase and as a digit. -/
theorem upperDigitLe (c : Char) :
    (if c.isUpper then 1 else 0) + (if c.isDigit then 1 else 0) ≤ 1 := by
  by_cases hu : c.isUpper = true
  · by_cases hd : c.isDigit = true
    · exfalso
      simp only [Char.isUpper, Char.isDigit, Bool.and_eq_true, decide_eq_true_eq] at hu hd
      obtain ⟨h1, h2⟩ := hu
      obtain ⟨h3, h4⟩ := hd
      rw [ge_iff_le, UInt32.le_def] at h1
      rw [UInt32.le_def] at h4
      exact absurd (BitVec.le_trans h1 h4) (by decide)
    · simp [hu, hd]
  · by_cases hd : c.isDigit = true <;> simp [hu, hd]

/-! ## The claims -/

/-- C1, counterexample: the claim says every field present in the new
    record — including `category` — overwrites the old value when
    `update_from_str` merges a record into an existing entry.  Merging a
    record that carries `\category internal` over a base entry of category
    `Char` leaves the stored category `Char`: `Marker::update_from` never
    assigns `category`. -/
theorem c1_counterexample :
    (match updateFromStr c1Base c1Src with
      | .ok t => (alLookup t (str "m")).map Marker.category
      | _ => none) = some Category.Char
    ∧ Category.Char ≠ Category.Internal :=
  ⟨rfl, by decide⟩

/-- C1, amended: on a successful `update_from_str`, the binding of every
    name is the per-name merge trace of the parsed records over the old
    binding, where the merge (`mergeInto`) takes a new definition as-is when
    the name was absent, and otherwise keeps `name` and `category`,
    overwrites each `Option` field present (non-absent) in the new record,
    leaves absent fields untouched, and unions the attribute entries into
    the existing mapping (second conjunct: new entries are inserted over the
    old mapping, so old keys survive unless overridden). -/
theorem c1_merge_amended :
    ∀ (tbl : Extensions) (input : Input) (out : Extensions),
      updateFromStr tbl input = .ok out →
      (∀ n, alLookup out n =
        mergeTrace (alLookup tbl n)
          ((parsedRecords (rustTrim input)).filter (fun m => m.name == n)))
      ∧ (∀ (old m : Marker) (k : Input),
          alLookup (mergeInto (some old) m).attributes k =
            scanLast m.attributes (alLookup old.attributes k) k) := by
  intro tbl input out h
  constructor
  · intro n
    simp only [updateFromStr] at h
    unfold parsedRecords
    cases hi : iterRecords ((rustTrim input).length + 1) (rustTrim input) [] with
    | mk ms fin =>
      rw [hi] at h
      cases fin with
      | ok r u => exact updFold_lookup ms tbl out h n
      | err e =>
        have h2 : UpdResult.err e = UpdResult.ok out := h
        cases h2
      | fail e =>
        have h2 : UpdResult.err e = UpdResult.ok out := h
        cases h2
  · intro old m k
    show alLookup (alExtend old.attributes m.attributes) k = _
    exact alExtend_lookup m.attributes old.attributes k

/-- Witness for the amended C1 at a concrete table and source. -/
theorem c1_merge_amended_witness :
    alLookup [(str "m", mCharMarker)] (str "m") =
      mergeTrace (alLookup c1Base (str "m"))
        ((parsedRecords (rustTrim c1Src)).filter (fun m => m.name == str "m")) :=
  (c1_merge_amended c1Base c1Src [(str "m", mCharMarker)] rfl).1 (str "m")

/-- C2, counterexample: the claim says a 3-character code containing a
    lowercase letter makes the identification rule fail; `\id mat ...`
    parses successfully with code `mat`. -/
theorem c2_counterexample :
    identification 3 (str "\\id mat Some text\n") =
      .ok [] (Content.book (Node.mk (str "id") [(str "code", str "mat")]
        [Content.text (str "Some text")]), 3) := rfl

/-- C2, amended: the character-class verify is vacuous — the counted
    constraint (uppercase count plus digit count at most 3) holds for every
    3-character span, so the rule accepts any 3 characters. -/
theorem c2_code_amended : ∀ (s : Input), s.length = 3 → codeCheck s = true := by
  intro s hs
  obtain ⟨a, b, c, rfl⟩ := List.length_eq_three.mp hs
  have ha := upperDigitLe a
  have hb := upperDigitLe b
  have hc := upperDigitLe c
  simp only [codeCheck, codeCounts, List.foldl_cons, List.foldl_nil,
    decide_eq_true_eq]
  omega

/-- Witness for the amended C2. -/
theorem c2_code_amended_witness :
    (str "mat").length = 3 ∧ codeCheck (str "mat") = true :=
  ⟨rfl, c2_code_amended (str "mat") rfl⟩

/-- C3: a source parses to `testMarker`, but re-parsing the `Display`
    serialization of `testMarker` fails: `Display` writes no separator
    between fields (and writes `\category` in place of `\attributes`), so
    the round-trip does not hold. -/
theorem c3_roundtrip_fails :
    record (str "\\marker test\n\\category internal\n") = .ok [] testMarker
    ∧ Marker.display testMarker = str "\\marker test\\category internal"
    ∧ (record (Marker.display testMarker)).isOk = false :=
  ⟨rfl, rfl, rfl⟩

/-- C4: with `mt` registered under category Title, the title rule applied to
    `\mt \` + line ending yields no paragraph at all (and consumes
    nothing): the text alternative succeeds with an empty run before the
    optional-break alternative is ever tried, after which the line-ending
    requirement fails, so an `OptBreak` content item is never produced. -/
theorem c4_optbreak_unreachable :
    titles mtTbl (str "\\mt \\\n") = .ok (str "\\mt \\\n") [] := rfl

/-- C5, counterexample: `From<&str>` on a source whose record commits and
    then is malformed aborts the process (the `.expect` panic, modelled as
    `none`) instead of returning an error value. -/
theorem c5_counterexample : extensionsFromStr c5Src = none := rfl

/-- C5, amended: `update_from_str` itself is total and never reaches the
    `assert_eq!` abort on any input, for every table whose entries are keyed
    by their marker names; malformed committed input yields an error value. -/
theorem c5_no_panic_amended :
    ∀ (tbl : Extensions) (input : Input), WFtbl tbl →
      updateFromStr tbl input ≠ .panic := by
  intro tbl input hw
  simp only [updateFromStr]
  cases hi : iterRecords ((rustTrim input).length + 1) (rustTrim input) [] with
  | mk ms fin =>
    cases fin with
    | ok r u =>
      intro h
      exact updFold_no_panic ms tbl hw h
    | err e =>
      intro h
      cases (show UpdResult.err e = UpdResult.panic from h)
    | fail e =>
      intro h
      cases (show UpdResult.err e = UpdResult.panic from h)

/-- Witness for the amended C5. -/
theorem c5_no_panic_amended_witness :
    updateFromStr [] c5Src ≠ .panic :=
  c5_no_panic_amended [] c5Src (fun kv hm => absurd hm (List.not_mem_nil kv))

/-- C6: whenever the raw-load path succeeds, the binding of every name is
    the last parsed record with that name, whole — later records silently
    and wholly replace earlier ones. -/
theorem c6_last_write_wins :
    ∀ (input : Input) (tbl : Extensions), fromReader input = .ok tbl →
      ∀ n, alLookup tbl n = lastRecord (parsedRecords (rustTrim input)) n := by
  intro input tbl h n
  simp only [fromReader] at h
  unfold parsedRecords
  cases hi : iterRecords ((rustTrim input).length + 1) (rustTrim input) [] with
  | mk ms fin =>
    rw [hi] at h
    cases fin with
    | ok r u =>
      have h2 : Except.ok (ε := PError) ((ms.map (fun m => (m.name, m))).foldl
          (fun t kv => alInsert t kv.1 kv.2) []) = Except.ok tbl := h
      injection h2 with h3
      rw [← h3]
      show alLookup (alExtend [] (ms.map (fun m => (m.name, m)))) n = _
      rw [alExtend_lookup]
      rfl
    | err e =>
      cases (show Except.error (α := Extensions) e = Except.ok tbl from h)
    | fail e =>
      cases (show Except.error (α := Extensions) e = Except.ok tbl from h)

/-- Witness for C6 at a source that defines `a` twice. -/
theorem c6_last_write_wins_witness :
    alLookup c6Tbl (str "a") = lastRecord (parsedRecords (rustTrim c6Src)) (str "a") :=
  c6_last_write_wins c6Src c6Tbl rfl (str "a")

/-- C7: the identification rule on the fixture input yields the expected
    BookLevel node and leaves the version at its default 3.0; with
    `\usfm 3.1` appended it yields the same node and sets the version to
    3.1; and in general the returned version differs from the incoming one
    only when the optional `\usfm` field actually parsed (third conjunct). -/
theorem c7_identification :
    identification 3 c7Src1 = .ok [] (c7Node, 3)
    ∧ identification 3 c7Src2 = .ok [] (c7Node, 31 / 10)
    ∧ ∀ (v : ℚ) (input rest : Input) (c : Content) (v2 : ℚ),
        identification v input = .ok rest (c, v2) → v2 ≠ v →
        ∃ mid : Input, usfmOpt mid = .ok rest (some v2) := by
  have e3 : digitsToNat (str "3") = 3 := rfl
  have e1 : digitsToNat (str "1") = 1 := rfl
  have hq : ((digitsToNat (str "3") : ℚ) +
      (digitsToNat (str "1") : ℚ) / ((10 : ℚ) ^ (str "1").length)) = 31 / 10 := by
    rw [e3, e1, show (str "1").length = 1 from rfl]
    norm_num
  refine ⟨by rfl, ?_, ?_⟩
  · rw [← hq]
    rfl
  intro v input rest c v2 h hne
  unfold identification at h
  cases h0 : Terminal.bom input with
  | err e => simp only [h0] at h; cases h
  | fail e => simp only [h0] at h; cases h
  | ok r0 b =>
    simp only [h0] at h
    cases h1 : idHead r0 with
    | err e => simp only [h1] at h; cases h
    | fail e => simp only [h1] at h; cases h
    | ok r1 ct =>
      simp only [h1] at h
      cases h2 : usfmOpt r1 with
      | err e => simp only [h2] at h; cases h
      | fail e => simp only [h2] at h; cases h
      | ok r2 over =>
        simp only [h2] at h
        injection h with hr hv
        injection hv with hv1 hv2
        cases over with
        | none => exact absurd (show v2 = v from hv2.symm) hne
        | some q =>
          refine ⟨r1, ?_⟩
          rw [h2, hr]
          rw [show q = v2 from hv2]

/-- Witness for C7's third conjunct at the fixture input. -/
theorem c7_identification_witness :
    ∃ mid : Input, usfmOpt mid = .ok [] (some (31 / 10)) :=
  c7_identification.2.2 3 c7Src2 [] c7Node (31 / 10)
    c7_identification.2.1 (by norm_num)

/-- C8: once the `\marker <name>` field line has been recognized, `record`
    never returns the recoverable error variant — the `cut` promotes every
    failure in the remaining fields to the non-recoverable variant. -/
theorem c8_commit_cut :
    ∀ (input r nm : Input),
      fieldP (str "marker") Terminal.name input = .ok r nm →
      (record input).isRecoverableErr = false := by
  intro input r nm h
  unfold record
  rw [h]
  exact pmap_pcut_not_err _ _ r

/-- Witness for C8: a committed record whose fields are malformed. -/
theorem c8_commit_cut_witness :
    (record (str "\\marker test\ngarbage")).isRecoverableErr = false :=
  c8_commit_cut (str "\\marker test\ngarbage") (str "garbage") (str "test") rfl

/-- C9: for every table, expected category and input whose head is a
    well-formed marker token, an unknown marker name and a known marker of a
    mismatched category fail with the identical recoverable error
    (`make_error` at the post-marker position with kind Tag); the gate
    returns only that error, handing the caller back its original input
    unconsumed. -/
theorem c9_gate_errors :
    ∀ (tbl : Extensions) (cat : Category) (input rest style : Input),
      Terminal.marker input = .ok rest style →
      (alLookup tbl style = none ∨
        ∃ m, alLookup tbl style = some m ∧ m.category ≠ cat) →
      markerGate tbl cat input = .err [(rest, "Tag")] := by
  intro tbl cat input rest style hm hcase
  unfold markerGate
  simp only [hm]
  rcases hcase with hnone | ⟨m, hsome, hne⟩
  · rw [hnone]
  · rw [hsome]
    show (if m.category = cat then PRes.ok rest style
      else PRes.err [(rest, "Tag")]) = PRes.err [(rest, "Tag")]
    rw [if_neg hne]

/-- Witness for C9: an unknown marker over the `mt` table. -/
theorem c9_gate_errors_witness :
    markerGate mtTbl Category.Header (str "\\zz 1") = .err [(str "1", "Tag")] :=
  c9_gate_errors mtTbl Category.Header (str "\\zz 1") (str "1") (str "zz")
    rfl (Or.inl rfl)

/-- C10: the text tokenizer stops before `//`, stops before a marker,
    consumes the escape sequences literally, and succeeds on every input
    (the empty run is a success, e.g. on the empty input). -/
theorem c10_text :
    Terminal.text (str "Some // text") = .ok (str "// text") (str "Some ")
    ∧ Terminal.text (str "Some text\\v 1") = .ok (str "\\v 1") (str "Some text")
    ∧ Terminal.text (str "Some text \\\\ \\~ \\/") = .ok [] (str "Some text \\\\ \\~ \\/")
    ∧ Terminal.text [] = .ok [] []
    ∧ ∀ (input : Input), ∃ rest v, Terminal.text input = .ok rest v :=
  ⟨rfl, rfl, rfl, rfl, text_total⟩

end Usfm
